import Mathlib

/-!
Verification development for the flash-cosine-sim-attention repository
sources (`benchmark.py` and `flash_cosine_sim_attention/transformer.py`),
together with spec-modelled definitions of the attention primitives
(`plain_cosine_sim_attention`, `flash_cosine_sim_attention`, the l2
normalization stage) that the sources import from
`flash_cosine_sim_attention/flash_cosine_sim_attention.py`, a module that
is not part of this snapshot.

All arithmetic is exact (rationals).  The transcendental functions of the
floating-point code (the exponential used on similarity scores and the
square root used by L2 normalization) are taken as explicit function
parameters `ex sq : ℚ → ℚ`, so every definition stays computable; theorems
add the algebraic facts about `ex`/`sq` they need as hypotheses (for
example positivity of the exponential, or that `sq` squares back to its
argument).
-/

namespace FlashCosineSimSpec

/-- Feature vectors are lists of rationals. -/
abbrev Vec := List ℚ

/-- Dot product of two feature vectors. -/
def dot (a b : Vec) : ℚ := (List.zipWith (fun x y => x * y) a b).sum

/-- Scale a vector by a scalar. -/
def smul (c : ℚ) (a : Vec) : Vec := a.map (fun x => c * x)

/-- Componentwise sum of two vectors. -/
def vadd (a b : Vec) : Vec := List.zipWith (fun x y => x + y) a b

/-- Divide a vector componentwise by a scalar (division by zero is zero,
as everywhere in `ℚ`). -/
def vdiv (a : Vec) (c : ℚ) : Vec := a.map (fun x => x / c)

/-- Sum of a list of width-`d` vectors. -/
def vsum (d : ℕ) (l : List Vec) : Vec := l.foldr vadd (List.replicate d 0)

/-- Sum of squares of the entries of a vector (the square of its L2 norm). -/
def sqNormSum (a : Vec) : ℚ := (a.map (fun x => x * x)).sum

/-- Modelled from the spec: the Normalization Stage (spec section 4.1) of the
missing kernel module.  Each feature vector is divided by its L2 norm "with a
small epsilon added to the norm to avoid division by zero"; `sq` stands for
the square-root function. -/
def l2norm (sq : ℚ → ℚ) (eps : ℚ) (a : Vec) : Vec :=
  vdiv a (sq (sqNormSum a) + eps)

/-- Modelled from the spec: the Normalization Stage applied to every feature
vector (row) of a tensor. -/
def l2normRows (sq : ℚ → ℚ) (eps : ℚ) (m : List Vec) : List Vec :=
  m.map (l2norm sq eps)

/-- Feature width of a value tensor (length of its first row). -/
def vwidth (v : List Vec) : ℕ := (v.headD []).length

/-- Pair every element of a list with its position, starting at `s`. -/
def posFrom {α : Type} (s : ℕ) : List α → List (ℕ × α)
  | [] => []
  | a :: l => (s, a) :: posFrom (s + 1) l

/-- Keys and values paired with their sequence positions. -/
def enumKV (k v : List Vec) : List (ℕ × Vec × Vec) := posFrom 0 (k.zip v)

/-- Modelled from the spec: the attention weight an exponentiated scaled
cosine-similarity score contributes for query position `i` and key position
`j` (spec sections 4.2 and 4.5).  In causal mode a key position is valid iff
it is at most the query position; masked entries are "treated as
exponentiated-zero (excluded from both the value accumulation and the
denominator)" — equivalently the additive large-negative
bias of the reference path, whose exponential is zero. -/
def attnWeight (ex : ℚ → ℚ) (scale : ℚ) (causal : Bool) (i j : ℕ)
    (qi kj : Vec) : ℚ :=
  if causal ∧ i < j then 0 else ex (scale * dot qi kj)

/-- Weighted sum of value rows for one query row over a stretch of
enumerated key/value pairs. -/
def rowNum (ex : ℚ → ℚ) (scale : ℚ) (causal : Bool) (i : ℕ) (qi : Vec)
    (d : ℕ) (kv : List (ℕ × Vec × Vec)) : Vec :=
  vsum d (kv.map fun p => smul (attnWeight ex scale causal i p.1 qi p.2.1) p.2.2)

/-- Sum of attention weights for one query row over a stretch of enumerated
key/value pairs (the softmax denominator / Running Statistics scalar). -/
def rowDen (ex : ℚ → ℚ) (scale : ℚ) (causal : Bool) (i : ℕ) (qi : Vec)
    (kv : List (ℕ × Vec × Vec)) : ℚ :=
  (kv.map fun p => attnWeight ex scale causal i p.1 qi p.2.1).sum

/-- One output row of the reference attention: weighted value sum divided by
the weight sum (a row-wise softmax contraction). -/
def plainRow (ex : ℚ → ℚ) (scale : ℚ) (causal : Bool) (i : ℕ) (qi : Vec)
    (d : ℕ) (kv : List (ℕ × Vec × Vec)) : Vec :=
  vdiv (rowNum ex scale causal i qi d kv) (rowDen ex scale causal i qi kv)

/-- Modelled from the spec: the Reference Attention baseline
`plain_cosine_sim_attention` (spec section 4.5), absent from the snapshot:
L2-normalize query and key, materialize the full score matrix of scaled
cosine similarities, mask causally (masked scores exponentiate to zero),
take a row-wise softmax and contract with the value rows. -/
def plain_cosine_sim_attention (sq ex : ℚ → ℚ) (eps scale : ℚ)
    (causal : Bool) (q k v : List Vec) : List Vec :=
  (posFrom 0 (l2normRows sq eps q)).map fun p =>
    plainRow ex scale causal p.1 p.2 (vwidth v) (enumKV (l2normRows sq eps k) v)

/-- Fuelled worker for `chunks` (structural recursion on the fuel, which is
always at least the list length at the initial call). -/
def chunksAux {α : Type} (t : ℕ) : ℕ → List α → List (List α)
  | 0, _ => []
  | _ + 1, [] => []
  | fuel + 1, a :: l => (a :: l.take t) :: chunksAux t fuel (l.drop t)

/-- Split a list into contiguous tiles of `t + 1` elements (the final tile
may be shorter); tile size is therefore always positive. -/
def chunks {α : Type} (t : ℕ) (l : List α) : List (List α) :=
  chunksAux t l.length l

/-- Modelled from the spec: one tile step of the Flash Forward Kernel (spec
section 4.2): in causal mode a key tile entirely past the query position is
skipped, otherwise the exponentiated masked scores of the tile are accumulated
into the output accumulator and the denominator accumulator. -/
def tileStep (ex : ℚ → ℚ) (scale : ℚ) (causal : Bool) (i : ℕ) (qi : Vec)
    (d : ℕ) (acc : Vec × ℚ) (tile : List (ℕ × Vec × Vec)) : Vec × ℚ :=
  if causal ∧ tile.all (fun p => decide (i < p.1)) then acc
  else (vadd acc.1 (rowNum ex scale causal i qi d tile),
        acc.2 + rowDen ex scale causal i qi tile)

/-- Modelled from the spec: one output row of the Flash Forward Kernel,
iterating over key/value tiles in increasing position order, then dividing
by the accumulated denominator with epsilon floor; the raw denominator is
returned alongside as the Running Statistics of the row. -/
def flashRow (ex : ℚ → ℚ) (scale : ℚ) (causal : Bool) (t : ℕ) (fleps : ℚ)
    (i : ℕ) (qi : Vec) (d : ℕ) (kv : List (ℕ × Vec × Vec)) : Vec × ℚ :=
  let acc := (chunks t kv).foldl (tileStep ex scale causal i qi d)
    (List.replicate d 0, 0)
  (vdiv acc.1 (max acc.2 fleps), acc.2)

/-- Modelled from the spec: the fused forward primitive
`flash_cosine_sim_attention` (spec sections 4.2 and 6), absent from the
snapshot: L2-normalize query and key, then produce per query row the tiled
online accumulation of exponentiated cosine-similarity scores against the
value rows, returning the output tensor together with the per-row Running
Statistics. -/
def flash_cosine_sim_attention (sq ex : ℚ → ℚ) (eps fleps scale : ℚ)
    (causal : Bool) (t : ℕ) (q k v : List Vec) : List Vec × List ℚ :=
  (((posFrom 0 (l2normRows sq eps q)).map fun p =>
      flashRow ex scale causal t fleps p.1 p.2 (vwidth v)
        (enumKV (l2normRows sq eps k) v)).map Prod.fst,
   ((posFrom 0 (l2normRows sq eps q)).map fun p =>
      flashRow ex scale causal t fleps p.1 p.2 (vwidth v)
        (enumKV (l2normRows sq eps k) v)).map Prod.snd)

/-! ### Call sites of the attention primitives (transformer.py, benchmark.py) -/

/-- The two attention primitives exported by the kernel module and imported
by both `transformer.py` and `benchmark.py`. -/
inductive AttentionPrimitive : Type
  | plain
  | flash
deriving DecidableEq

/-- A call site of an attention primitive: which primitive is invoked and
with which causal flag. -/
structure AttnCallSite : Type where
  primitive : AttentionPrimitive
  causal : Bool
deriving DecidableEq

/-- The attention-primitive call inside `Attention.forward`
(transformer.py line 96): `plain_cosine_sim_attention(q, k, v, causal = True)`. -/
def Attention.forwardCall : AttnCallSite := ⟨AttentionPrimitive.plain, true⟩

/-- The primitive wrapped as `fused_attention_fn` in benchmark.py
(lines 36-40): `flash_cosine_sim_attention`. -/
def benchmarkFusedPrimitive : AttentionPrimitive := AttentionPrimitive.flash

/-- The primitive wrapped as `attention_fn` (the baseline) in benchmark.py
(lines 42-46): `plain_cosine_sim_attention`. -/
def benchmarkBaselinePrimitive : AttentionPrimitive := AttentionPrimitive.plain

/-! ### The benchmark harness sweep (benchmark.py) -/

/-- The two dtypes the benchmark loop iterates over, in program order
(benchmark.py line 59). -/
inductive Dtype : Type
  | float32
  | float16
deriving DecidableEq

/-- The command-line switches of benchmark.py (lines 16-20), plus the
derived causal flag. -/
structure BenchArgs : Type where
  causal : Bool
  onlyForwards : Bool
  onlyBackwards : Bool
deriving DecidableEq

/-- benchmark.py line 32: `TEST_FORWARDS = not args.only_backwards`. -/
def TEST_FORWARDS (a : BenchArgs) : Bool := !a.onlyBackwards

/-- benchmark.py line 33: `TEST_BACKWARDS = not args.only_forwards`. -/
def TEST_BACKWARDS (a : BenchArgs) : Bool := !a.onlyForwards

/-- benchmark.py line 26. -/
def BATCH_SIZES : ℕ := 4

/-- benchmark.py line 27. -/
def HEADS : ℕ := 8

/-- benchmark.py line 28. -/
def DIM : ℕ := 64

/-- benchmark.py line 31. -/
def TEST_SEQUENCE_LENGTHS : List ℕ := [128, 256, 512, 1024, 2048, 4096]

/-- The dtypes actually timed by a run: the loop body starts with
`if TEST_BACKWARDS and name == "float16": continue` in effect (benchmark.py
lines 61-62, quoting style adjusted),
so float16 is skipped unless backwards testing is disabled. -/
def dtypeRuns (a : BenchArgs) : List Dtype :=
  [Dtype.float32, Dtype.float16].filter fun d =>
    !(TEST_BACKWARDS a && decide (d = Dtype.float16))

/-- Shape of the query/key/value tensors allocated for one configuration
(benchmark.py lines 67-69): `torch.randn(batch, heads, seq, dim)`. -/
structure TensorShape : Type where
  batch : ℕ
  heads : ℕ
  seq : ℕ
  dim : ℕ
deriving DecidableEq

/-- The configurations of one benchmark run, in loop order: dtypes from
`dtypeRuns`, and for each dtype the sequence lengths of
`TEST_SEQUENCE_LENGTHS` with batch 4, heads 8, feature dimension 64
(`permutations` is the single triple (4, 8, 64)). -/
def sweepConfigs (a : BenchArgs) : List (Dtype × TensorShape) :=
  (dtypeRuns a).flatMap fun d =>
    TEST_SEQUENCE_LENGTHS.map fun s => (d, ⟨BATCH_SIZES, HEADS, s, DIM⟩)

/-- Which wrapped primitive a timed call drives. -/
inductive AttnPath : Type
  | fused
  | baseline
deriving DecidableEq

/-- One timed call of the sweep; `tensorId` is the allocation index of the
fresh `q, k, v` triple: the two calls of a configuration carry the same
`tensorId` because benchmark.py lines 67-76 allocate one triple and pass it
to both `fused_attention_fn` and `attention_fn`. -/
structure TimedCall : Type where
  path : AttnPath
  dtype : Dtype
  shape : TensorShape
  tensorId : ℕ
  causal : Bool
deriving DecidableEq

/-- All timed calls of one run, in program order: per configuration first
the fused call then the baseline call, on the same fresh tensors. -/
def sweepCalls (a : BenchArgs) : List TimedCall :=
  (posFrom 0 (sweepConfigs a)).flatMap fun p =>
    [⟨AttnPath.fused, p.2.1, p.2.2, p.1, a.causal⟩,
     ⟨AttnPath.baseline, p.2.1, p.2.2, p.1, a.causal⟩]

/-- Exception behaviour of the inner loop body of one configuration
(benchmark.py lines 71-78): the fused call is evaluated bare, so an
exception from it propagates and aborts the whole sweep (`none`); the
baseline call sits in `try ... except`, an exception there records the
sentinel elapsed time `-1` (printed as oom) and the loop continues.
Each configuration is given by the outcome of its two timed calls
(`none` = the call raised, `some t` = it returned elapsed time `t`). -/
def runSweepTimes : List (Option ℚ × Option ℚ) → Option (List (ℚ × ℚ))
  | [] => some []
  | (f, b) :: rest =>
    match f with
    | none => none
    | some ftime =>
      let btime : ℚ := match b with | none => -1 | some tb => tb
      (runSweepTimes rest).map fun l => (ftime, btime) :: l

/-! ### The example transformer (transformer.py) -/

/-- A torch module as far as `eval_decorator` is concerned: the boolean
`training` flag plus all remaining state (parameters, buffers). -/
structure TorchModel (α : Type) : Type where
  training : Bool
  params : α
deriving DecidableEq

/-- transformer.py lines 14-21: `eval_decorator` records `model.training`,
switches the model to eval mode, runs the wrapped function, and restores
the recorded mode on the result state. -/
def eval_decorator {α β : Type} (fn : TorchModel α → TorchModel α × β)
    (model : TorchModel α) : TorchModel α × β :=
  let was_training := model.training
  let r := fn { model with training := false }
  ({ r.1 with training := was_training }, r.2)

/-- The `@torch.no_grad()` + `@eval_decorator` wrapping of
`AutoregressiveWrapper.generate` (transformer.py lines 39-41) applied to a
sampling body that only reads the model: `no_grad` disables gradient
tracking for the body and restores the previous grad mode; the body
`sampler` observes the grad mode and the model it is given.  The result
records the restored grad mode, the restored model, the sampled output,
and the (grad mode, training flag) the body actually ran under. -/
def generateEffects {α β : Type} (sampler : Bool → TorchModel α → β)
    (grad : Bool) (model : TorchModel α) :
    (Bool × TorchModel α × β) × (Bool × Bool) :=
  let innerGrad := false
  let r := eval_decorator (fun m => (m, sampler innerGrad m)) model
  ((grad, r.1, r.2), (innerGrad, (({ model with training := false } : TorchModel α)).training))

/-- The Python slice `l[-m:]` on a row of tokens (transformer.py line 47:
`out[:, -self.max_seq_len:]`): for `m = 0` the slice is `l[0:]`, the whole
list; otherwise the last `m` elements. -/
def pyLastSlice {α : Type} (m : ℕ) (l : List α) : List α :=
  if m = 0 then l else l.drop (l.length - m)

/-- transformer.py lines 45-51, one batch row: the sampling loop.  Each
step slices the running sequence to the last `max_seq_len` tokens, asks the
composite sampler `net` (network forward, top-k filter, softmax,
multinomial — modelled as one oracle from context to token) for one token
and appends it.  Returns the final running sequence together with the list
of contexts the oracle was conditioned on, in step order. -/
def genLoop (net : List ℕ → ℕ) (m : ℕ) : ℕ → List ℕ → List ℕ × List (List ℕ)
  | 0, out => (out, [])
  | steps + 1, out =>
    let ctx := pyLastSlice m out
    let r := genLoop net m steps (out ++ [net ctx])
    (r.1, ctx :: r.2)

/-- transformer.py lines 39-53, one batch row:
`AutoregressiveWrapper.generate` runs the sampling loop for `seqLen` steps
starting from the prompt and returns `out[:, n:]` — the running sequence
with the prompt dropped — together with the conditioning contexts. -/
def generate (net : List ℕ → ℕ) (m : ℕ) (start : List ℕ) (seqLen : ℕ) :
    List ℕ × List (List ℕ) :=
  ((genLoop net m seqLen start).1.drop start.length,
   (genLoop net m seqLen start).2)

/-- `generate` over a whole batch (each row sampled independently, as
`torch.multinomial` does per row). -/
def generateBatch (net : List ℕ → ℕ) (m : ℕ) (starts : List (List ℕ))
    (seqLen : ℕ) : List (List ℕ) :=
  starts.map fun s => (generate net m s seqLen).1

/-! ### Top-k filtering (transformer.py lines 25-30)

Filtered logits live in `Option ℚ`: `none` encodes the minus-infinity
fill value, `some x` a retained logit. -/

/-- transformer.py line 26: `k = int((1 - thres) * logits.shape[-1])`.
For `0 ≤ thres ≤ 1` the quantity is nonnegative and the Python truncation
`int` agrees with the floor. -/
def kOf (thres : ℚ) (vocab : ℕ) : ℕ := ⌊(1 - thres) * (vocab : ℚ)⌋₊

/-- First pair of maximal value in an enumerated row (ties resolved toward
the earlier index, a concrete realization of the unspecified tie order of
`torch.topk`). -/
def argmaxP : List (ℕ × ℚ) → Option (ℕ × ℚ)
  | [] => none
  | p :: l =>
    match argmaxP l with
    | none => some p
    | some q => if p.2 < q.2 then some q else some p

/-- The `k` largest (index, logit) pairs of an enumerated row, repeatedly
extracting a maximum — the index/value pairs `torch.topk(logits, k)`
returns. -/
def selectTop : ℕ → List (ℕ × ℚ) → List (ℕ × ℚ)
  | 0, _ => []
  | n + 1, l =>
    match argmaxP l with
    | none => []
    | some p => p :: selectTop n (l.erase p)

/-- transformer.py lines 25-30, one row of the logits: keep the top
`k = int((1 - thres) * V)` entries (via `torch.topk` and `scatter_`) and
fill every other position with negative infinity. -/
def top_k (thres : ℚ) (row : List ℚ) : List (Option ℚ) :=
  let chosen := (selectTop (kOf thres row.length) (posFrom 0 row)).map Prod.fst
  (posFrom 0 row).map fun p => if p.1 ∈ chosen then some p.2 else none

/-- The exponential of a possibly-minus-infinite logit: negative infinity
exponentiates to zero. -/
def expVal (ex : ℚ → ℚ) : Option ℚ → ℚ
  | none => 0
  | some x => ex x

/-- Softmax over filtered logits (transformer.py line 49), with the
exponential as parameter `ex`. -/
def softmaxFiltered (ex : ℚ → ℚ) (l : List (Option ℚ)) : List ℚ :=
  let s := (l.map (expVal ex)).sum
  l.map fun x => expVal ex x / s

/-- A list of rationals is a valid sampling distribution for
`torch.multinomial` when its entries are nonnegative and sum to one. -/
def IsProbDist (l : List ℚ) : Prop := l.sum = 1 ∧ ∀ p ∈ l, 0 ≤ p

/-! ### Vector algebra lemmas -/

theorem length_vadd (a b : Vec) : (vadd a b).length = min a.length b.length := by
  simp [vadd]

theorem length_smul (c : ℚ) (a : Vec) : (smul c a).length = a.length := by
  simp [smul]

theorem vadd_assoc (a b c : Vec) : vadd (vadd a b) c = vadd a (vadd b c) := by
  induction a generalizing b c with
  | nil => simp [vadd]
  | cons x xs ih =>
    cases b with
    | nil => simp [vadd]
    | cons y ys =>
      cases c with
      | nil => simp [vadd]
      | cons z zs =>
        have h := ih ys zs
        simp only [vadd] at h ⊢
        simp [List.zipWith_cons_cons, add_assoc, h]

theorem vadd_replicate_zero_right (a : Vec) :
    vadd a (List.replicate a.length 0) = a := by
  induction a with
  | nil => simp [vadd]
  | cons x xs ih => simpa [vadd, List.replicate_succ] using ih

theorem vadd_replicate_zero_left (a : Vec) :
    vadd (List.replicate a.length 0) a = a := by
  induction a with
  | nil => simp [vadd]
  | cons x xs ih => simpa [vadd, List.replicate_succ] using ih

theorem vadd_replicate_zero_left_of (d : ℕ) (a : Vec) (h : a.length = d) :
    vadd (List.replicate d 0) a = a := by
  subst h
  exact vadd_replicate_zero_left a

theorem vadd_replicate_zero_right_of (d : ℕ) (a : Vec) (h : a.length = d) :
    vadd a (List.replicate d 0) = a := by
  subst h
  exact vadd_replicate_zero_right a

theorem length_vsum (d : ℕ) (l : List Vec) (h : ∀ x ∈ l, x.length = d) :
    (vsum d l).length = d := by
  induction l with
  | nil => simp [vsum]
  | cons x xs ih =>
    have hx : x.length = d := h x (List.mem_cons_self x xs)
    have hxs := ih (fun y hy => h y (List.mem_cons_of_mem x hy))
    simp [vsum] at hxs ⊢
    simp [vadd, hx, hxs]

theorem vsum_append (d : ℕ) (l1 l2 : List Vec)
    (h1 : ∀ x ∈ l1, x.length = d) (h2 : ∀ x ∈ l2, x.length = d) :
    vsum d (l1 ++ l2) = vadd (vsum d l1) (vsum d l2) := by
  induction l1 with
  | nil =>
    have hlen : (vsum d l2).length = d := length_vsum d l2 h2
    show vsum d l2 = vadd (vsum d []) (vsum d l2)
    have hz : vsum d ([] : List Vec) = List.replicate d 0 := rfl
    rw [hz]
    exact (vadd_replicate_zero_left_of d _ hlen).symm
  | cons x xs ih =>
    have hxs := ih (fun y hy => h1 y (List.mem_cons_of_mem x hy))
    show vsum d (x :: (xs ++ l2)) = vadd (vadd x (vsum d xs)) (vsum d l2)
    calc vsum d (x :: (xs ++ l2)) = vadd x (vsum d (xs ++ l2)) := rfl
    _ = vadd x (vadd (vsum d xs) (vsum d l2)) := by rw [hxs]
    _ = vadd (vadd x (vsum d xs)) (vsum d l2) := (vadd_assoc _ _ _).symm

theorem smul_zero_vec (a : Vec) : smul 0 a = List.replicate a.length 0 := by
  simp [smul]

theorem vsum_of_replicates (d : ℕ) (l : List Vec)
    (h : ∀ x ∈ l, x = List.replicate d 0) : vsum d l = List.replicate d 0 := by
  induction l with
  | nil => simp [vsum]
  | cons x xs ih =>
    have hx : x = List.replicate d 0 := h x (List.mem_cons_self x xs)
    have hxs := ih (fun y hy => h y (List.mem_cons_of_mem x hy))
    show vadd x (vsum d xs) = List.replicate d 0
    rw [hx, hxs]
    have := vadd_replicate_zero_right (List.replicate d (0 : ℚ))
    simpa using this

/-! ### Row accumulation lemmas -/

theorem length_rowNum (ex : ℚ → ℚ) (scale : ℚ) (causal : Bool) (i : ℕ)
    (qi : Vec) (d : ℕ) (kv : List (ℕ × Vec × Vec))
    (h : ∀ p ∈ kv, p.2.2.length = d) :
    (rowNum ex scale causal i qi d kv).length = d := by
  refine length_vsum d _ ?_
  intro x hx
  rcases List.mem_map.1 hx with ⟨p, hp, rfl⟩
  rw [length_smul]
  exact h p hp

theorem rowDen_append (ex : ℚ → ℚ) (scale : ℚ) (causal : Bool) (i : ℕ)
    (qi : Vec) (kv1 kv2 : List (ℕ × Vec × Vec)) :
    rowDen ex scale causal i qi (kv1 ++ kv2)
      = rowDen ex scale causal i qi kv1 + rowDen ex scale causal i qi kv2 := by
  simp [rowDen]

theorem rowNum_append (ex : ℚ → ℚ) (scale : ℚ) (causal : Bool) (i : ℕ)
    (qi : Vec) (d : ℕ) (kv1 kv2 : List (ℕ × Vec × Vec))
    (h1 : ∀ p ∈ kv1, p.2.2.length = d) (h2 : ∀ p ∈ kv2, p.2.2.length = d) :
    rowNum ex scale causal i qi d (kv1 ++ kv2)
      = vadd (rowNum ex scale causal i qi d kv1)
          (rowNum ex scale causal i qi d kv2) := by
  unfold rowNum
  rw [List.map_append]
  refine vsum_append d _ _ ?_ ?_ <;> intro x hx <;>
    rcases List.mem_map.1 hx with ⟨p, hp, rfl⟩ <;> rw [length_smul]
  · exact h1 p hp
  · exact h2 p hp

theorem attnWeight_causal_zero (ex : ℚ → ℚ) (scale : ℚ) (i j : ℕ)
    (qi kj : Vec) (h : i < j) : attnWeight ex scale true i j qi kj = 0 := by
  simp [attnWeight, h]

theorem rowNum_skip (ex : ℚ → ℚ) (scale : ℚ) (i : ℕ) (qi : Vec) (d : ℕ)
    (tile : List (ℕ × Vec × Vec)) (hpast : ∀ p ∈ tile, i < p.1)
    (hlen : ∀ p ∈ tile, p.2.2.length = d) :
    rowNum ex scale true i qi d tile = List.replicate d 0 := by
  refine vsum_of_replicates d _ ?_
  intro x hx
  rcases List.mem_map.1 hx with ⟨p, hp, rfl⟩
  rw [attnWeight_causal_zero ex scale i p.1 qi p.2.1 (hpast p hp),
    smul_zero_vec, hlen p hp]

theorem rowDen_skip (ex : ℚ → ℚ) (scale : ℚ) (i : ℕ) (qi : Vec)
    (tile : List (ℕ × Vec × Vec)) (hpast : ∀ p ∈ tile, i < p.1) :
    rowDen ex scale true i qi tile = 0 := by
  unfold rowDen
  rw [List.sum_eq_zero]
  intro x hx
  rcases List.mem_map.1 hx with ⟨p, hp, rfl⟩
  exact attnWeight_causal_zero ex scale i p.1 qi p.2.1 (hpast p hp)

/-! ### Chunking lemmas -/

theorem chunksAux_congr {α : Type} (t : ℕ) :
    ∀ f1 f2 (l : List α), l.length ≤ f1 → l.length ≤ f2 →
      chunksAux t f1 l = chunksAux t f2 l := by
  intro f1
  induction f1 with
  | zero =>
    intro f2 l h1 _
    have : l = [] := List.length_eq_zero.1 (Nat.le_zero.1 h1)
    subst this
    cases f2 <;> simp [chunksAux]
  | succ f1 ih =>
    intro f2 l h1 h2
    cases l with
    | nil => cases f2 <;> simp [chunksAux]
    | cons a l' =>
      cases f2 with
      | zero => exact absurd h2 (by simp)
      | succ f2 =>
        simp only [chunksAux]
        congr 1
        have hd : (l'.drop t).length ≤ l'.length := by
          simp [List.length_drop]
        have h1' : l'.length ≤ f1 := by simp at h1; omega
        have h2' : l'.length ≤ f2 := by simp at h2; omega
        exact ih f2 (l'.drop t) (le_trans hd h1') (le_trans hd h2')

theorem chunks_nil {α : Type} (t : ℕ) : chunks t ([] : List α) = [] := rfl

theorem chunks_cons {α : Type} (t : ℕ) (a : α) (l : List α) :
    chunks t (a :: l) = (a :: l.take t) :: chunks t (l.drop t) := by
  show chunksAux t (l.length + 1) (a :: l) = _
  simp only [chunksAux]
  congr 1
  exact chunksAux_congr t l.length (l.drop t).length (l.drop t)
    (by simp [List.length_drop]) le_rfl

theorem mem_of_mem_chunks {α : Type} (t : ℕ) :
    ∀ n (l : List α), l.length ≤ n → ∀ tile ∈ chunks t l, ∀ x ∈ tile, x ∈ l := by
  intro n
  induction n with
  | zero =>
    intro l h1 tile htile
    have : l = [] := List.length_eq_zero.1 (Nat.le_zero.1 h1)
    subst this
    simp [chunks_nil] at htile
  | succ n ih =>
    intro l h1 tile htile x hx
    cases l with
    | nil => simp [chunks_nil] at htile
    | cons a l' =>
      rw [chunks_cons] at htile
      rcases List.mem_cons.1 htile with h | h
      · subst h
        rcases List.mem_cons.1 hx with h | h
        · simp [h]
        · exact List.mem_cons_of_mem a (List.take_subset t l' h)
      · have hd : (l'.drop t).length ≤ n := by
          have hn : l'.length ≤ n := by simp at h1; omega
          exact le_trans (by simp [List.length_drop]) hn
        exact List.mem_cons_of_mem a
          (List.drop_subset t l' (ih (l'.drop t) hd tile h x hx))

/-! ### The tiled accumulation computes the untiled sums -/

theorem foldl_tileStep (ex : ℚ → ℚ) (scale : ℚ) (causal : Bool) (i : ℕ)
    (qi : Vec) (d t : ℕ) :
    ∀ n (kv : List (ℕ × Vec × Vec)), kv.length ≤ n →
      (∀ p ∈ kv, p.2.2.length = d) →
      ∀ (n0 : Vec), n0.length = d → ∀ e0 : ℚ,
      (chunks t kv).foldl (tileStep ex scale causal i qi d) (n0, e0)
        = (vadd n0 (rowNum ex scale causal i qi d kv),
           e0 + rowDen ex scale causal i qi kv) := by
  intro n
  induction n with
  | zero =>
    intro kv hn hp n0 h0 e0
    have : kv = [] := List.length_eq_zero.1 (Nat.le_zero.1 hn)
    subst this
    have hnum : rowNum ex scale causal i qi d [] = List.replicate d 0 := rfl
    simp [chunks_nil, hnum, rowDen, vadd_replicate_zero_right_of d n0 h0]
  | succ n ih =>
    intro kv hn hp n0 h0 e0
    cases kv with
    | nil =>
      have hnum : rowNum ex scale causal i qi d [] = List.replicate d 0 := rfl
      simp [chunks_nil, hnum, rowDen, vadd_replicate_zero_right_of d n0 h0]
    | cons a l =>
      rw [chunks_cons, List.foldl_cons]
      set tile : List (ℕ × Vec × Vec) := a :: l.take t with htile
      have hsplit : a :: l = tile ++ l.drop t := by
        simp [htile, List.take_append_drop]
      have htile_sub : ∀ p ∈ tile, p ∈ a :: l := by
        intro p hp'
        rcases List.mem_cons.1 hp' with h | h
        · simp [h]
        · exact List.mem_cons_of_mem a (List.take_subset t l h)
      have htile_len : ∀ p ∈ tile, p.2.2.length = d :=
        fun p hp' => hp p (htile_sub p hp')
      have hdrop_sub : ∀ p ∈ l.drop t, p ∈ a :: l :=
        fun p hp' => List.mem_cons_of_mem a (List.drop_subset t l hp')
      have hdrop_len : ∀ p ∈ l.drop t, p.2.2.length = d :=
        fun p hp' => hp p (hdrop_sub p hp')
      have hdn : (l.drop t).length ≤ n := by
        have : l.length ≤ n := by simp at hn; omega
        exact le_trans (by simp [List.length_drop]) this
      have hNumSplit : rowNum ex scale causal i qi d (a :: l)
          = vadd (rowNum ex scale causal i qi d tile)
              (rowNum ex scale causal i qi d (l.drop t)) := by
        rw [hsplit]
        exact rowNum_append ex scale causal i qi d tile (l.drop t) htile_len hdrop_len
      have hDenSplit : rowDen ex scale causal i qi (a :: l)
          = rowDen ex scale causal i qi tile + rowDen ex scale causal i qi (l.drop t) := by
        rw [hsplit]
        exact rowDen_append ex scale causal i qi tile (l.drop t)
      by_cases hskip : (causal ∧ tile.all (fun p => decide (i < p.1)) : Prop)
      · have hstep : tileStep ex scale causal i qi d (n0, e0) tile = (n0, e0) := by
          unfold tileStep
          rw [if_pos hskip]
        rw [hstep]
        have hc : causal = true := hskip.1
        have hpast : ∀ p ∈ tile, i < p.1 := by
          intro p hp'
          exact of_decide_eq_true (List.all_eq_true.1 hskip.2 p hp')
        have hnum0 : rowNum ex scale causal i qi d tile = List.replicate d 0 := by
          rw [hc]
          exact rowNum_skip ex scale i qi d tile hpast htile_len
        have hden0 : rowDen ex scale causal i qi tile = 0 := by
          rw [hc]
          exact rowDen_skip ex scale i qi tile hpast
        rw [ih (l.drop t) hdn hdrop_len n0 h0 e0, hNumSplit, hDenSplit, hnum0, hden0]
        have hlen : (rowNum ex scale causal i qi d (l.drop t)).length = d :=
          length_rowNum ex scale causal i qi d (l.drop t) hdrop_len
        rw [vadd_replicate_zero_left_of d _ hlen, zero_add]
      · have hstep : tileStep ex scale causal i qi d (n0, e0) tile
            = (vadd n0 (rowNum ex scale causal i qi d tile),
               e0 + rowDen ex scale causal i qi tile) := by
          unfold tileStep
          rw [if_neg hskip]
        rw [hstep]
        have hacc_len : (vadd n0 (rowNum ex scale causal i qi d tile)).length = d := by
          rw [length_vadd, h0,
            length_rowNum ex scale causal i qi d tile htile_len]
          simp
        rw [ih (l.drop t) hdn hdrop_len _ hacc_len _, hNumSplit, hDenSplit,
          vadd_assoc, add_assoc]

/-- The Flash Forward row equals the untiled weighted sums: output is the
full weighted value sum divided by the epsilon-floored full denominator,
and the returned Running Statistics scalar is the raw denominator. -/
theorem flashRow_eq (ex : ℚ → ℚ) (scale : ℚ) (causal : Bool) (t : ℕ)
    (fleps : ℚ) (i : ℕ) (qi : Vec) (d : ℕ) (kv : List (ℕ × Vec × Vec))
    (h : ∀ p ∈ kv, p.2.2.length = d) :
    flashRow ex scale causal t fleps i qi d kv
      = (vdiv (rowNum ex scale causal i qi d kv)
          (max (rowDen ex scale causal i qi kv) fleps),
         rowDen ex scale causal i qi kv) := by
  unfold flashRow
  rw [foldl_tileStep ex scale causal i qi d t kv.length kv le_rfl h
    (List.replicate d 0) (by simp) 0]
  have hlen : (rowNum ex scale causal i qi d kv).length = d :=
    length_rowNum ex scale causal i qi d kv h
  rw [vadd_replicate_zero_left_of d _ hlen]
  simp

/-! ### Position/zip bookkeeping -/

theorem posFrom_getElem? {α : Type} :
    ∀ (s : ℕ) (l : List α) (n : ℕ),
      (posFrom s l)[n]? = l[n]?.map fun a => (s + n, a) := by
  intro s l
  induction l generalizing s with
  | nil => intro n; simp [posFrom]
  | cons a l ih =>
    intro n
    cases n with
    | zero => simp [posFrom]
    | succ n =>
      simp only [posFrom, List.getElem?_cons_succ]
      rw [ih (s + 1) n]
      have : s + 1 + n = s + (n + 1) := by omega
      rw [this]

theorem length_posFrom {α : Type} :
    ∀ (s : ℕ) (l : List α), (posFrom s l).length = l.length := by
  intro s l
  induction l generalizing s with
  | nil => simp [posFrom]
  | cons a l ih => simp [posFrom, ih]

theorem mem_posFrom_zip {α β : Type} :
    ∀ (s : ℕ) (a : List α) (b : List β) (p : ℕ × α × β),
      p ∈ posFrom s (a.zip b) → p.2.1 ∈ a ∧ p.2.2 ∈ b := by
  intro s a
  induction a generalizing s with
  | nil => intro b p hp; simp [posFrom] at hp
  | cons x xs ih =>
    intro b p hp
    cases b with
    | nil => simp [posFrom] at hp
    | cons y ys =>
      simp only [List.zip_cons_cons, posFrom, List.mem_cons] at hp
      rcases hp with h | h
      · subst h; simp
      · rcases ih (s + 1) ys p h with ⟨h1, h2⟩
        exact ⟨List.mem_cons_of_mem x h1, List.mem_cons_of_mem y h2⟩

/-! ### Congruence of a causal row in the key/value entries at or before
the query position -/

/-- Relation between two enumerated key/value entries that a causal query
row at position `i` cannot distinguish: same sequence position, equal
key/value data whenever the position is visible (at most `i`), and value
rows of width `d` on both sides. -/
def KVRel (i d : ℕ) (p p' : ℕ × Vec × Vec) : Prop :=
  p.1 = p'.1 ∧ (p.1 ≤ i → p.2 = p'.2) ∧ p.2.2.length = d ∧ p'.2.2.length = d

theorem rowNum_congr (ex : ℚ → ℚ) (scale : ℚ) (i : ℕ) (qi : Vec) (d : ℕ)
    (kv kv' : List (ℕ × Vec × Vec)) (h : List.Forall₂ (KVRel i d) kv kv') :
    rowNum ex scale true i qi d kv = rowNum ex scale true i qi d kv' := by
  unfold rowNum
  congr 1
  induction h with
  | nil => rfl
  | cons hpq _ ih =>
    rename_i p p' l l' _
    rw [List.map_cons, List.map_cons, ih]
    congr 1
    rcases hpq with ⟨hidx, hvis, hd1, hd2⟩
    by_cases hj : p.1 ≤ i
    · rw [hvis hj, hidx]
    · have h1 : i < p.1 := Nat.lt_of_not_le hj
      have h2 : i < p'.1 := hidx ▸ h1
      rw [attnWeight_causal_zero ex scale i p.1 qi p.2.1 h1,
        attnWeight_causal_zero ex scale i p'.1 qi p'.2.1 h2,
        smul_zero_vec, smul_zero_vec, hd1, hd2]

theorem rowDen_congr (ex : ℚ → ℚ) (scale : ℚ) (i : ℕ) (qi : Vec) (d : ℕ)
    (kv kv' : List (ℕ × Vec × Vec)) (h : List.Forall₂ (KVRel i d) kv kv') :
    rowDen ex scale true i qi kv = rowDen ex scale true i qi kv' := by
  unfold rowDen
  congr 1
  induction h with
  | nil => rfl
  | cons hpq _ ih =>
    rename_i p p' l l' _
    rw [List.map_cons, List.map_cons, ih]
    congr 1
    rcases hpq with ⟨hidx, hvis, _, _⟩
    by_cases hj : p.1 ≤ i
    · rw [hvis hj, hidx]
    · have h1 : i < p.1 := Nat.lt_of_not_le hj
      have h2 : i < p'.1 := hidx ▸ h1
      rw [attnWeight_causal_zero ex scale i p.1 qi p.2.1 h1,
        attnWeight_causal_zero ex scale i p'.1 qi p'.2.1 h2]

theorem forall₂_posFrom_zip (i d : ℕ) :
    ∀ (s : ℕ) (a a' b b' : List Vec),
      a.length = a'.length → b.length = b'.length →
      (∀ r ∈ b, r.length = d) → (∀ r ∈ b', r.length = d) →
      (∀ j, s + j ≤ i → a[j]? = a'[j]? ∧ b[j]? = b'[j]?) →
      List.Forall₂ (KVRel i d) (posFrom s (a.zip b)) (posFrom s (a'.zip b')) := by
  intro s a
  induction a generalizing s with
  | nil =>
    intro a' b b' hlen _ _ _ _
    have : a' = [] := List.length_eq_zero.1 (by simpa using hlen.symm)
    subst this
    simp [posFrom]
  | cons x xs ih =>
    intro a' b b' hlen hblen hb hb' hagree
    cases a' with
    | nil => simp at hlen
    | cons y ys =>
      cases b with
      | nil =>
        have : b' = [] := List.length_eq_zero.1 (by simpa using hblen.symm)
        subst this
        simp [posFrom]
      | cons u us =>
        cases b' with
        | nil => simp at hblen
        | cons w ws =>
          simp only [List.zip_cons_cons, posFrom]
          refine List.Forall₂.cons ?_ ?_
          · refine ⟨rfl, ?_, hb u (List.mem_cons_self u us),
              hb' w (List.mem_cons_self w ws)⟩
            intro hs
            have h0 := hagree 0 (by simpa using hs)
            simp only [List.getElem?_cons_zero, Option.some.injEq] at h0
            rw [h0.1, h0.2]
          · refine ih (s + 1) ys us ws (by simpa using hlen) (by simpa using hblen)
              (fun r hr => hb r (List.mem_cons_of_mem u hr))
              (fun r hr => hb' r (List.mem_cons_of_mem w hr)) ?_
            intro j hj
            have := hagree (j + 1) (by omega)
            simpa using this

/-! ### Sampling-loop lemmas -/

theorem genLoop_contexts_length (net : List ℕ → ℕ) (m : ℕ) :
    ∀ (n : ℕ) (out : List ℕ), (genLoop net m n out).2.length = n := by
  intro n
  induction n with
  | zero => intro out; rfl
  | succ n ih => intro out; simp [genLoop, ih]

theorem genLoop_fst (net : List ℕ → ℕ) (m : ℕ) :
    ∀ (n : ℕ) (out : List ℕ),
      (genLoop net m n out).1 = out ++ (genLoop net m n out).2.map net := by
  intro n
  induction n with
  | zero => intro out; simp [genLoop]
  | succ n ih =>
    intro out
    simp only [genLoop, List.map_cons]
    rw [ih (out ++ [net (pyLastSlice m out)])]
    simp

theorem length_pyLastSlice_le {α : Type} (m : ℕ) (hm : 0 < m) (l : List α) :
    (pyLastSlice m l).length ≤ m := by
  unfold pyLastSlice
  rw [if_neg (Nat.pos_iff_ne_zero.1 hm)]
  simp [List.length_drop]
  omega

theorem genLoop_contexts_le (net : List ℕ → ℕ) (m : ℕ) (hm : 0 < m) :
    ∀ (n : ℕ) (out : List ℕ), ∀ c ∈ (genLoop net m n out).2, c.length ≤ m := by
  intro n
  induction n with
  | zero => intro out c hc; simp [genLoop] at hc
  | succ n ih =>
    intro out c hc
    simp only [genLoop, List.mem_cons] at hc
    rcases hc with h | h
    · subst h
      exact length_pyLastSlice_le m hm out
    · exact ih (out ++ [net (pyLastSlice m out)]) c h

/-! ### Claim theorems -/

/-- C1 counterexample: the claim says the attention layer of the example
transformer consumes the fused attention primitive; but the call at
transformer.py line 96 is `plain_cosine_sim_attention(q, k, v, causal =
True)` — the reference path, not the fused kernel. -/
theorem C1_counterexample :
    ¬ Attention.forwardCall.primitive = AttentionPrimitive.flash := by
  decide

/-- C1 amended: the attention layer of the example transformer consumes the
reference (plain) cosine-similarity primitive as a black box (with
causal = True); the fused kernel is exercised only by the benchmark
harness, whose baseline wrapper also uses the reference primitive. -/
theorem C1_amended :
    Attention.forwardCall = ⟨AttentionPrimitive.plain, true⟩ ∧
    benchmarkFusedPrimitive = AttentionPrimitive.flash ∧
    benchmarkBaselinePrimitive = AttentionPrimitive.plain :=
  ⟨rfl, rfl, rfl⟩

/-- C2 counterexample: the claim says an out-of-memory raise of either
timed primitive records the -1 sentinel and the sweep continues; but when
the fused call raises (first configuration below), the exception is not
caught and the whole sweep aborts instead of recording a sentinel and
proceeding to the next configuration. -/
theorem C2_counterexample :
    runSweepTimes [(none, some 3), (some 2, some 5)] = none := rfl

/-- C2 amended: the recoverable sentinel treatment applies only to the
reference (baseline) path: provided no fused call raises, the sweep
completes, recording each fused elapsed time as returned and recording -1
(reported as oom) for every baseline call that raised. -/
theorem C2_amended (configs : List (Option ℚ × Option ℚ))
    (h : ∀ c ∈ configs, c.1 ≠ none) :
    runSweepTimes configs
      = some (configs.map fun c => (c.1.getD 0, c.2.getD (-1))) := by
  induction configs with
  | nil => rfl
  | cons c rest ih =>
    have hrest := ih (fun x hx => h x (List.mem_cons_of_mem c hx))
    obtain ⟨f, b⟩ := c
    cases f with
    | none => exact absurd rfl (h (none, b) (List.mem_cons_self _ _))
    | some ft => cases b <;> simp [runSweepTimes, hrest]

/-- C2 witness: a concrete two-call sweep in which the baseline raises:
the harness records (2, -1) and completes. -/
theorem C2_witness : runSweepTimes [(some 2, none)] = some [((2 : ℚ), -1)] := by
  simpa using C2_amended [(some 2, none)] (by simp)

/-- C3 counterexample: the claim says every run times both dtypes; but on
the default run (no flags, hence `TEST_BACKWARDS`) the continue statement
of the loop body skips float16 entirely. -/
theorem C3_counterexample :
    Dtype.float16 ∉ (sweepConfigs ⟨false, false, false⟩).map Prod.fst := by
  decide

/-- C3 amended: the sweep uses sequence lengths 128..4096 in increasing
order with tensor shape (4, 8, seq, 64); dtype float32 is always timed,
while float16 is timed only when backwards testing is disabled
(`--only-forwards`); both timed calls of a configuration share the same
freshly allocated tensor triple. -/
theorem C3_amended (a : BenchArgs)
    (h : ¬(a.onlyForwards = true ∧ a.onlyBackwards = true)) :
    (sweepConfigs a).map Prod.fst
      = (if a.onlyForwards then
          List.replicate 6 Dtype.float32 ++ List.replicate 6 Dtype.float16
         else List.replicate 6 Dtype.float32) ∧
    (sweepConfigs a).map (fun p => p.2.seq)
      = (if a.onlyForwards then
          TEST_SEQUENCE_LENGTHS ++ TEST_SEQUENCE_LENGTHS
         else TEST_SEQUENCE_LENGTHS) ∧
    (∀ p ∈ sweepConfigs a, p.2.batch = 4 ∧ p.2.heads = 8 ∧ p.2.dim = 64) ∧
    (∀ c ∈ sweepCalls a, ∃ c' ∈ sweepCalls a,
      c'.path ≠ c.path ∧ c'.dtype = c.dtype ∧ c'.shape = c.shape ∧
      c'.tensorId = c.tensorId) := by
  obtain ⟨c, f, b⟩ := a
  revert h
  cases c <;> cases f <;> cases b <;> decide

/-- C3 witness: on the default run the timed dtypes are six float32
configurations. -/
theorem C3_witness :
    (sweepConfigs ⟨false, false, false⟩).map Prod.fst
      = List.replicate 6 Dtype.float32 :=
  (C3_amended ⟨false, false, false⟩ (by decide)).1

/-- C9: `AutoregressiveWrapper.generate` restores the training flag of the
wrapped model exactly (via `eval_decorator`), leaves all other model state
unchanged, restores the ambient gradient mode, and runs its body in eval
mode with gradient tracking disabled. -/
theorem C9_theorem {α β : Type} (sampler : Bool → TorchModel α → β)
    (grad : Bool) (model : TorchModel α) :
    generateEffects sampler grad model
      = ((grad, model, sampler false { model with training := false }),
         (false, false)) := by
  cases model
  rfl

/-- C8 counterexample: the claim says every sampling step conditions the
network on at most the last `max_seq_len` tokens; but with
`max_seq_len = 0` the Python slice `out[:, -0:]` is `out[:, 0:]`, the
entire running sequence: one step from prompt `[5]` conditions on the
1-token context `[5]`, which exceeds `max_seq_len = 0`. -/
theorem C8_counterexample :
    (generate (fun _ => 7) 0 [5] 1).2 = [[5]] ∧
    ¬ ([5] : List ℕ).length ≤ 0 := by
  decide

/-- C8 amended: for every `max_seq_len ≥ 1`, `generate` started from a
batch of prompts returns one row per prompt; each returned row consists of
exactly the `seq_len` newly sampled tokens in order (the final running
sequence is the prompt followed by the returned row, and the prompt itself
is excluded); and every conditioning context passed to the network has at
most `max_seq_len` tokens.  (With `max_seq_len = 0` the slice
`out[:, -0:]` degenerates to the whole running sequence.) -/
theorem C8_amended (net : List ℕ → ℕ) (m seqLen : ℕ)
    (starts : List (List ℕ)) (s : List ℕ) (hm : 0 < m) :
    (generateBatch net m starts seqLen).length = starts.length ∧
    (∀ s' ∈ starts, ((generate net m s' seqLen).1).length = seqLen) ∧
    (genLoop net m seqLen s).1 = s ++ (generate net m s seqLen).1 ∧
    (generate net m s seqLen).1 = (generate net m s seqLen).2.map net ∧
    (generate net m s seqLen).2.length = seqLen ∧
    (∀ c ∈ (generate net m s seqLen).2, c.length ≤ m) := by
  have key : ∀ s' : List ℕ, (generate net m s' seqLen).1
      = (genLoop net m seqLen s').2.map net := by
    intro s'
    unfold generate
    rw [genLoop_fst net m seqLen s']
    exact List.drop_left _ _
  refine ⟨by simp [generateBatch], ?_, ?_, ?_, ?_, ?_⟩
  · intro s' _
    rw [key s']
    simp [genLoop_contexts_length]
  · rw [key s]
    exact genLoop_fst net m seqLen s
  · rw [key s]
    rfl
  · show (genLoop net m seqLen s).2.length = seqLen
    exact genLoop_contexts_length net m seqLen s
  · intro c hc
    exact genLoop_contexts_le net m hm seqLen s c hc

/-- C8 witness: a concrete run with `max_seq_len = 2`, prompt `[1, 2, 3]`
and two steps: sampled row has length 2 and equals the oracle outputs on
the recorded contexts, every context having at most 2 tokens. -/
theorem C8_witness :
    ((generateBatch (fun l => l.sum) 2 [[1, 2, 3]] 2).length = 1) ∧
    (∀ c ∈ (generate (fun l => l.sum) 2 [1, 2, 3] 2).2, c.length ≤ 2) := by
  have h := C8_amended (fun l => l.sum) 2 2 [[1, 2, 3]] [1, 2, 3] (by decide)
  exact ⟨by simpa using h.1, h.2.2.2.2.2⟩

/-- C5: the fused (tiled, epsilon-floored) forward output coincides exactly
with the reference attention output, for every tile size, causal flag and
input — provided the per-row softmax denominator is at least the epsilon
floor (with a genuine exponential the denominator is a sum of positive
terms, so any floor below the smallest reachable exponential satisfies
this).  In the exact-arithmetic embedding the two paths are equal, hence
within every floating-point tolerance. -/
theorem C5_theorem (sq ex : ℚ → ℚ) (eps fleps scale : ℚ) (causal : Bool)
    (t : ℕ) (q k v : List Vec)
    (hv : ∀ r ∈ v, r.length = vwidth v)
    (hden : ∀ p ∈ posFrom 0 (l2normRows sq eps q),
      fleps ≤ rowDen ex scale causal p.1 p.2 (enumKV (l2normRows sq eps k) v)) :
    (flash_cosine_sim_attention sq ex eps fleps scale causal t q k v).1
      = plain_cosine_sim_attention sq ex eps scale causal q k v := by
  unfold flash_cosine_sim_attention plain_cosine_sim_attention
  rw [List.map_map]
  apply List.map_congr_left
  intro p hp
  have hkv : ∀ p' ∈ enumKV (l2normRows sq eps k) v, p'.2.2.length = vwidth v :=
    fun p' hp' => hv _ (mem_posFrom_zip 0 _ v p' hp').2
  show (flashRow ex scale causal t fleps p.1 p.2 (vwidth v)
    (enumKV (l2normRows sq eps k) v)).1 = _
  rw [flashRow_eq _ _ _ _ _ _ _ _ _ hkv]
  unfold plainRow
  rw [max_eq_left (hden p hp)]

/-- C5 witness: a concrete 1×1 instance on which the fused and reference
paths agree. -/
theorem C5_witness :
    (flash_cosine_sim_attention (fun _ => (1 : ℚ)) (fun _ => 1) 0 1 1 false 0
      [[1]] [[1]] [[1]]).1
      = plain_cosine_sim_attention (fun _ => (1 : ℚ)) (fun _ => 1) 0 1 false
          [[1]] [[1]] [[1]] := by
  refine C5_theorem (fun _ => 1) (fun _ => 1) 0 1 1 false 0 [[1]] [[1]] [[1]]
    (by simp [vwidth]) ?_
  intro p hp
  simp [l2normRows, l2norm, vdiv, sqNormSum, posFrom] at hp
  simp [hp, rowDen, attnWeight, enumKV, posFrom, l2normRows, l2norm, vdiv,
    sqNormSum, dot]

/-- Dividing a `w`-scaled vector by a nonzero `w` recovers the vector. -/
theorem vdiv_smul_self (w : ℚ) (hw : w ≠ 0) (a : Vec) :
    vdiv (smul w a) w = a := by
  simp [vdiv, smul, List.map_map, Function.comp_def, mul_div_assoc]
  have hx : ∀ x : ℚ, w * (x / w) = x := fun x => by
    field_simp
  simp [hx]

/-- Mapping a constant over a list produces a replicate of its length. -/
theorem map_eq_replicate_of_const {α β : Type} (l : List α) (f : α → β)
    (b : β) (h : ∀ x ∈ l, f x = b) : l.map f = List.replicate l.length b := by
  induction l with
  | nil => rfl
  | cons x xs ih =>
    rw [List.map_cons, h x (List.mem_cons_self x xs), List.length_cons,
      List.replicate_succ, ih (fun y hy => h y (List.mem_cons_of_mem x hy))]

/-- C6: a non-causal call with a single key/value row returns that value
row exactly, in every output row, for the reference path and for the fused
path: the lone weight `w = ex(scale·cos)` is positive (`hex`, the
exponential is positive) and is both numerator factor and denominator, so
the division restores the value row; for the fused path the epsilon floor
is inactive because `fleps` lies below every exponential value (`hfl`). -/
theorem C6_theorem (sq ex : ℚ → ℚ) (eps fleps scale : ℚ) (t : ℕ)
    (q : List Vec) (k0 v0 : Vec)
    ( _hscale : 0 < scale) (hex : ∀ x, 0 < ex x) (hfl : ∀ x, fleps ≤ ex x) :
    plain_cosine_sim_attention sq ex eps scale false q [k0] [v0]
      = List.replicate q.length v0 ∧
    (flash_cosine_sim_attention sq ex eps fleps scale false t q [k0] [v0]).1
      = List.replicate q.length v0 := by
  have hkv : enumKV (l2normRows sq eps [k0]) [v0]
      = [(0, l2norm sq eps k0, v0)] := rfl
  have hd : vwidth [v0] = v0.length := rfl
  have hnum : ∀ (i : ℕ) (qi : Vec),
      rowNum ex scale false i qi v0.length [(0, l2norm sq eps k0, v0)]
        = smul (ex (scale * dot qi (l2norm sq eps k0))) v0 := by
    intro i qi
    show vsum v0.length [smul (attnWeight ex scale false i 0 qi (l2norm sq eps k0)) v0]
      = _
    have hw : attnWeight ex scale false i 0 qi (l2norm sq eps k0)
        = ex (scale * dot qi (l2norm sq eps k0)) := by
      simp [attnWeight]
    show vadd (smul (attnWeight ex scale false i 0 qi (l2norm sq eps k0)) v0)
      (vsum v0.length []) = _
    have hz : vsum v0.length ([] : List Vec) = List.replicate v0.length 0 := rfl
    rw [hz, hw, vadd_replicate_zero_right_of v0.length _ (length_smul _ _)]
  have hden : ∀ (i : ℕ) (qi : Vec),
      rowDen ex scale false i qi [(0, l2norm sq eps k0, v0)]
        = ex (scale * dot qi (l2norm sq eps k0)) := by
    intro i qi
    simp [rowDen, attnWeight]
  constructor
  · unfold plain_cosine_sim_attention
    rw [hkv]
    have hlen : (posFrom 0 (l2normRows sq eps q)).length = q.length := by
      rw [length_posFrom]
      simp [l2normRows]
    rw [← hlen]
    apply map_eq_replicate_of_const
    intro p _
    unfold plainRow
    rw [hd, hnum p.1 p.2, hden p.1 p.2]
    exact vdiv_smul_self _ (ne_of_gt (hex _)) v0
  · unfold flash_cosine_sim_attention
    rw [List.map_map, hkv]
    have hlen : (posFrom 0 (l2normRows sq eps q)).length = q.length := by
      rw [length_posFrom]
      simp [l2normRows]
    rw [← hlen]
    apply map_eq_replicate_of_const
    intro p _
    have hkvlen : ∀ p' ∈ [((0 : ℕ), l2norm sq eps k0, v0)],
        p'.2.2.length = vwidth [v0] := by
      intro p' hp'
      simp at hp'
      subst hp'
      rfl
    show (flashRow ex scale false t fleps p.1 p.2 (vwidth [v0])
      [(0, l2norm sq eps k0, v0)]).1 = v0
    rw [flashRow_eq _ _ _ _ _ _ _ _ _ hkvlen]
    show vdiv (rowNum ex scale false p.1 p.2 (vwidth [v0]) _)
      (max (rowDen ex scale false p.1 p.2 _) fleps) = v0
    rw [hd, hnum p.1 p.2, hden p.1 p.2, max_eq_left (hfl _)]
    exact vdiv_smul_self _ (ne_of_gt (hex _)) v0

/-- C6 witness: a concrete non-causal single-key call returning the value
row exactly. -/
theorem C6_witness :
    plain_cosine_sim_attention (fun _ => (1 : ℚ)) (fun _ => 1) 0 1 false
      [[1]] [[1]] [[1]] = [[1]] ∧
    (flash_cosine_sim_attention (fun _ => (1 : ℚ)) (fun _ => 1) 0 1 1 false 0
      [[1]] [[1]] [[1]]).1 = [[1]] := by
  have h := C6_theorem (fun _ => 1) (fun _ => 1) 0 1 1 0 [[1]] [1] [1]
    one_pos (fun _ => one_pos) (fun _ => le_refl 1)
  simpa using h

/-- C4: causal noninterference.  For a causal call, the output row at query
position `i` is unchanged under any modification of the key and value rows
at positions strictly greater than `i`: two runs whose keys and values
agree at all positions at most `i` (and share shapes) produce the same
output row `i`, on the reference path and on the fused path alike. -/
theorem C4_theorem (sq ex : ℚ → ℚ) (eps fleps scale : ℚ) (t : ℕ)
    (q k v k' v' : List Vec) (i d : ℕ)
    (hw : vwidth v = d) (hw' : vwidth v' = d)
    (hv : ∀ r ∈ v, r.length = d) (hv' : ∀ r ∈ v', r.length = d)
    (hklen : k.length = k'.length) (hvlen : v.length = v'.length)
    (hagree : ∀ j, j ≤ i → k[j]? = k'[j]? ∧ v[j]? = v'[j]?) :
    (plain_cosine_sim_attention sq ex eps scale true q k v)[i]?
      = (plain_cosine_sim_attention sq ex eps scale true q k' v')[i]? ∧
    ((flash_cosine_sim_attention sq ex eps fleps scale true t q k v).1)[i]?
      = ((flash_cosine_sim_attention sq ex eps fleps scale true t q k' v').1)[i]? := by
  have hF : List.Forall₂ (KVRel i d)
      (enumKV (l2normRows sq eps k) v) (enumKV (l2normRows sq eps k') v') := by
    apply forall₂_posFrom_zip i d 0
    · simp [l2normRows, hklen]
    · exact hvlen
    · exact hv
    · exact hv'
    · intro j hj
      have h := hagree j (by omega)
      refine ⟨?_, h.2⟩
      show (l2normRows sq eps k)[j]? = (l2normRows sq eps k')[j]?
      simp only [l2normRows, List.getElem?_map, h.1]
  have hNum : ∀ qi : Vec,
      rowNum ex scale true i qi d (enumKV (l2normRows sq eps k) v)
        = rowNum ex scale true i qi d (enumKV (l2normRows sq eps k') v') :=
    fun qi => rowNum_congr ex scale i qi d _ _ hF
  have hDen : ∀ qi : Vec,
      rowDen ex scale true i qi (enumKV (l2normRows sq eps k) v)
        = rowDen ex scale true i qi (enumKV (l2normRows sq eps k') v') :=
    fun qi => rowDen_congr ex scale i qi d _ _ hF
  have hkv : ∀ p' ∈ enumKV (l2normRows sq eps k) v, p'.2.2.length = d :=
    fun p' hp' => hv _ (mem_posFrom_zip 0 _ v p' hp').2
  have hkv' : ∀ p' ∈ enumKV (l2normRows sq eps k') v', p'.2.2.length = d :=
    fun p' hp' => hv' _ (mem_posFrom_zip 0 _ v' p' hp').2
  constructor
  · unfold plain_cosine_sim_attention
    rw [List.getElem?_map, List.getElem?_map, posFrom_getElem?]
    cases hq : (l2normRows sq eps q)[i]? with
    | none => simp [hq]
    | some qi =>
      simp only [hq, Option.map_some', Nat.zero_add]
      congr 1
      unfold plainRow
      rw [hw, hw', hNum qi, hDen qi]
  · unfold flash_cosine_sim_attention
    show (((posFrom 0 (l2normRows sq eps q)).map fun p =>
        flashRow ex scale true t fleps p.1 p.2 (vwidth v)
          (enumKV (l2normRows sq eps k) v)).map Prod.fst)[i]?
      = (((posFrom 0 (l2normRows sq eps q)).map fun p =>
          flashRow ex scale true t fleps p.1 p.2 (vwidth v')
            (enumKV (l2normRows sq eps k') v')).map Prod.fst)[i]?
    rw [List.map_map, List.map_map, List.getElem?_map, List.getElem?_map,
      posFrom_getElem?]
    cases hq : (l2normRows sq eps q)[i]? with
    | none => simp [hq]
    | some qi =>
      simp only [hq, Option.map_some', Nat.zero_add, Function.comp_apply]
      congr 1
      rw [hw, hw', flashRow_eq _ _ _ _ _ _ _ _ _ hkv,
        flashRow_eq _ _ _ _ _ _ _ _ _ hkv']
      show vdiv _ (max _ fleps) = vdiv _ (max _ fleps)
      rw [hNum qi, hDen qi]

/-- C4 witness: two concrete causal runs with keys differing only at
position 1 produce the same output row 0, on both paths. -/
theorem C4_witness :
    (plain_cosine_sim_attention (fun _ => (1 : ℚ)) (fun _ => 1) 0 1 true
      [[1], [1]] [[1], [2]] [[1], [1]])[0]?
      = (plain_cosine_sim_attention (fun _ => (1 : ℚ)) (fun _ => 1) 0 1 true
          [[1], [1]] [[1], [3]] [[1], [1]])[0]? ∧
    ((flash_cosine_sim_attention (fun _ => (1 : ℚ)) (fun _ => 1) 0 1 1 true 0
      [[1], [1]] [[1], [2]] [[1], [1]]).1)[0]?
      = ((flash_cosine_sim_attention (fun _ => (1 : ℚ)) (fun _ => 1) 0 1 1 true 0
          [[1], [1]] [[1], [3]] [[1], [1]]).1)[0]? := by
  refine C4_theorem (fun _ => 1) (fun _ => 1) 0 1 1 0 [[1], [1]]
    [[1], [2]] [[1], [1]] [[1], [3]] [[1], [1]] 0 1 rfl rfl ?_ ?_ rfl rfl ?_
  · intro r hr
    simp at hr
    subst hr
    rfl
  · intro r hr
    simp at hr
    subst hr
    rfl
  · intro j hj
    have hj0 : j = 0 := Nat.le_zero.1 hj
    subst hj0
    simp

/-- Squared norm of a vector divided by a scalar. -/
theorem sqNormSum_vdiv (a : Vec) (c : ℚ) :
    sqNormSum (vdiv a c) = sqNormSum a / (c * c) := by
  induction a with
  | nil => simp [sqNormSum, vdiv]
  | cons x xs ih =>
    show x / c * (x / c) + sqNormSum (vdiv xs c)
      = (x * x + sqNormSum xs) / (c * c)
    rw [ih, div_mul_div_comm, add_div]

/-- Square-root oracle used by the C7 counterexample: exact at the one
probed input, the squared norm 1/10000 of the vector [1/100], whose true
square root is 1/100. -/
def sqProbe (x : ℚ) : ℚ := if x = 1/10000 then 1/100 else 0

/-- C7 counterexample: the claim says every non-zero feature vector
normalizes to unit L2 norm within epsilon; but with epsilon 1/100 the
non-zero vector [1/100] (true norm 1/100) is divided by norm + epsilon =
1/50, yielding [1/2], whose squared norm 1/4 is far below (1 - eps)^2 —
the output norm 1/2 is not within epsilon of 1. -/
theorem C7_counterexample :
    sqNormSum [(1 : ℚ)/100] ≠ 0 ∧
    sqProbe (sqNormSum [(1 : ℚ)/100]) * sqProbe (sqNormSum [(1 : ℚ)/100])
      = sqNormSum [(1 : ℚ)/100] ∧
    l2norm sqProbe (1/100) [(1 : ℚ)/100] = [1/2] ∧
    sqNormSum (l2norm sqProbe (1/100) [(1 : ℚ)/100]) = 1/4 ∧
    ((1 : ℚ)/4) < (1 - 1/100) ^ 2 := by
  norm_num [sqProbe, l2norm, vdiv, sqNormSum]

/-- C7 amended: normalization preserves the shape of the tensor, and each
output vector has L2 norm exactly n/(n + eps) where n is the norm of the
input vector (stated on squared norms, with the square root provided as
an exact oracle `sq`); for vectors of norm at least 1 this is within
epsilon of unit (between 1 - eps and 1), but vectors whose norm is
comparable to epsilon fall short of unit norm. -/
theorem C7_amended (sq : ℚ → ℚ) (eps : ℚ) (heps : 0 ≤ eps) (m : List Vec)
    (hsq : ∀ x ∈ m,
      sq (sqNormSum x) * sq (sqNormSum x) = sqNormSum x ∧
      0 ≤ sq (sqNormSum x)) :
    (l2normRows sq eps m).length = m.length ∧
    (∀ x ∈ m, (l2norm sq eps x).length = x.length) ∧
    (∀ x ∈ m, sqNormSum (l2norm sq eps x)
        = (sq (sqNormSum x) / (sq (sqNormSum x) + eps)) ^ 2) ∧
    (∀ x ∈ m, 1 ≤ sq (sqNormSum x) →
      1 - eps ≤ sq (sqNormSum x) / (sq (sqNormSum x) + eps) ∧
      sq (sqNormSum x) / (sq (sqNormSum x) + eps) ≤ 1) := by
  refine ⟨by simp [l2normRows], ?_, ?_, ?_⟩
  · intro x _
    simp [l2norm, vdiv]
  · intro x hx
    rcases hsq x hx with ⟨h1, _⟩
    unfold l2norm
    rw [sqNormSum_vdiv, pow_two, div_mul_div_comm, h1]
  · intro x hx hs1
    have hpos : 0 < sq (sqNormSum x) + eps := by linarith
    constructor
    · rw [le_div_iff₀ hpos]
      nlinarith
    · exact div_le_one_of_le₀ (by linarith) (le_of_lt hpos)

/-- C7 witness: the unit vector [3/5, 4/5] (norm 1) normalizes with
epsilon 1/100 to a vector of norm 1/(1 + 1/100), within epsilon of unit. -/
theorem C7_witness :
    sqNormSum (l2norm (fun _ => (1 : ℚ)) (1/100) [3/5, 4/5])
      = ((1 : ℚ) / (1 + 1/100)) ^ 2 ∧
    1 - (1 : ℚ)/100 ≤ (1 : ℚ) / (1 + 1/100) := by
  have h := C7_amended (fun _ => 1) (1/100) (by norm_num) [[3/5, 4/5]]
    (by
      intro x hx
      simp at hx
      subst hx
      norm_num [sqNormSum])
  constructor
  · have h3 := h.2.2.1 [3/5, 4/5] (by simp)
    simpa using h3
  · have h4 := (h.2.2.2 [3/5, 4/5] (by simp) (by norm_num)).1
    simpa using h4

/-! ### Top-k selection lemmas -/

theorem argmaxP_spec :
    ∀ (l : List (ℕ × ℚ)) (p : ℕ × ℚ), argmaxP l = some p →
      p ∈ l ∧ ∀ b ∈ l, b.2 ≤ p.2 := by
  intro l
  induction l with
  | nil => intro p h; simp [argmaxP] at h
  | cons a l ih =>
    intro p h
    rw [argmaxP] at h
    cases hl : argmaxP l with
    | none =>
      rw [hl] at h
      have hp : a = p := by simpa using h
      subst hp
      have hnil : l = [] := by
        cases l with
        | nil => rfl
        | cons x xs =>
          rw [argmaxP] at hl
          cases hx : argmaxP xs <;> rw [hx] at hl
          · simp at hl
          · simp only [] at hl
            split at hl <;> simp at hl
      subst hnil
      exact ⟨by simp, by intro b hb; simp at hb; rw [hb]⟩
    | some q =>
      rw [hl] at h
      simp only [] at h
      rcases ih q hl with ⟨hqmem, hqmax⟩
      by_cases hlt : a.2 < q.2
      · rw [if_pos hlt] at h
        have hp : q = p := by simpa using h
        subst hp
        refine ⟨List.mem_cons_of_mem a hqmem, ?_⟩
        intro b hb
        rcases List.mem_cons.1 hb with rfl | hb
        · exact le_of_lt hlt
        · exact hqmax b hb
      · rw [if_neg hlt] at h
        have hp : a = p := by simpa using h
        subst hp
        refine ⟨List.mem_cons_self a l, ?_⟩
        intro b hb
        rcases List.mem_cons.1 hb with rfl | hb
        · exact le_refl _
        · exact le_trans (hqmax b hb) (not_lt.1 hlt)

theorem argmaxP_nil_iff (l : List (ℕ × ℚ)) : argmaxP l = none ↔ l = [] := by
  constructor
  · intro h
    cases l with
    | nil => rfl
    | cons a l =>
      rw [argmaxP] at h
      cases hl : argmaxP l <;> rw [hl] at h
      · simp at h
      · simp only [] at h
        split at h <;> simp at h
  · intro h
    subst h
    rfl

theorem selectTop_subset :
    ∀ (n : ℕ) (l : List (ℕ × ℚ)), ∀ p ∈ selectTop n l, p ∈ l := by
  intro n
  induction n with
  | zero => intro l p hp; simp [selectTop] at hp
  | succ n ih =>
    intro l p hp
    cases hl : argmaxP l with
    | none => simp [selectTop, hl] at hp
    | some a =>
      simp only [selectTop, hl, List.mem_cons] at hp
      rcases hp with rfl | hp
      · exact (argmaxP_spec l p hl).1
      · exact List.mem_of_mem_erase (ih (l.erase a) p hp)

theorem selectTop_length :
    ∀ (n : ℕ) (l : List (ℕ × ℚ)),
      (selectTop n l).length = min n l.length := by
  intro n
  induction n with
  | zero => intro l; simp [selectTop]
  | succ n ih =>
    intro l
    cases hl : argmaxP l with
    | none =>
      have hnil : l = [] := (argmaxP_nil_iff l).1 hl
      subst hnil
      simp [selectTop, hl]
    | some p =>
      have hmem := (argmaxP_spec l p hl).1
      have hlen := List.length_erase_of_mem hmem
      have hpos : 1 ≤ l.length := List.length_pos.2 (by
        rintro rfl
        simp [argmaxP] at hl)
      simp only [selectTop, hl, List.length_cons, ih, hlen]
      omega

theorem selectTop_dominates :
    ∀ (n : ℕ) (l : List (ℕ × ℚ)), ∀ a ∈ selectTop n l, ∀ b ∈ l,
      b.1 ∉ (selectTop n l).map Prod.fst → b.2 ≤ a.2 := by
  intro n
  induction n with
  | zero => intro l a ha; simp [selectTop] at ha
  | succ n ih =>
    intro l a ha b hb hnot
    cases hl : argmaxP l with
    | none => simp [selectTop, hl] at ha
    | some p =>
      rcases argmaxP_spec l p hl with ⟨_, hpmax⟩
      simp only [selectTop, hl, List.mem_cons] at ha
      simp only [selectTop, hl, List.map_cons, List.mem_cons] at hnot
      push_neg at hnot
      rcases ha with rfl | ha
      · exact hpmax b hb
      · have hbp : b ≠ p := fun h => hnot.1 (congrArg Prod.fst h)
        have hbmem : b ∈ l.erase p := (List.mem_erase_of_ne hbp).2 hb
        exact ih (l.erase p) a ha b hbmem hnot.2

/-- C10: `top_k` keeps exactly the `k = int((1 - thres)·V)` largest
entries of the row (at their original values, ties resolved toward lower
indices) and fills every other position with negative infinity; whenever
`k = 0` — as at the default threshold 0.9 for small vocabularies — every
entry is negative infinity, and the subsequent softmax has all-zero
exponentials, so it produces no valid sampling distribution. -/
theorem C10_theorem (thres : ℚ) (row : List ℚ) (ex : ℚ → ℚ)
    ( _h0 : 0 ≤ thres) ( _h1 : thres ≤ 1) :
    top_k thres row
      = (posFrom 0 row).map (fun p =>
          if p.1 ∈ (selectTop (kOf thres row.length) (posFrom 0 row)).map Prod.fst
          then some p.2 else none) ∧
    (selectTop (kOf thres row.length) (posFrom 0 row)).length
      = min (kOf thres row.length) row.length ∧
    (∀ p ∈ selectTop (kOf thres row.length) (posFrom 0 row),
      p ∈ posFrom 0 row) ∧
    (∀ a ∈ selectTop (kOf thres row.length) (posFrom 0 row),
      ∀ b ∈ posFrom 0 row,
        b.1 ∉ (selectTop (kOf thres row.length) (posFrom 0 row)).map Prod.fst →
        b.2 ≤ a.2) ∧
    (kOf thres row.length = 0 →
      top_k thres row = List.replicate row.length none ∧
      ¬ IsProbDist (softmaxFiltered ex (top_k thres row))) := by
  refine ⟨rfl, ?_, ?_, ?_, ?_⟩
  · rw [selectTop_length, length_posFrom]
  · exact selectTop_subset _ _
  · exact selectTop_dominates _ _
  · intro hk
    have hall : top_k thres row = List.replicate row.length none := by
      unfold top_k
      rw [hk]
      show (posFrom 0 row).map (fun p =>
        if p.1 ∈ ([] : List (ℕ × ℚ)).map Prod.fst then some p.2 else none)
        = _
      rw [← length_posFrom 0 row]
      apply map_eq_replicate_of_const
      intro p _
      simp
    refine ⟨hall, ?_⟩
    intro hdist
    have hsum : (softmaxFiltered ex (top_k thres row)).sum = 0 := by
      rw [hall]
      unfold softmaxFiltered
      rw [List.map_replicate, List.map_replicate]
      show (List.replicate row.length
        (expVal ex none / (List.replicate row.length (expVal ex none)).sum)).sum = 0
      have hz : expVal ex none = 0 := rfl
      simp [hz]
    rw [hdist.1] at hsum
    exact one_ne_zero hsum

/-- C10 witness: at the default threshold 0.9 with a 3-token vocabulary,
`k = 0`, every filtered logit is negative infinity, and the softmax output
is not a probability distribution. -/
theorem C10_witness :
    top_k (9/10) [1, 2, 3] = [none, none, none] ∧
    ¬ IsProbDist (softmaxFiltered (fun x => x) (top_k (9/10) [1, 2, 3])) := by
  have hk : kOf (9/10) (([1, 2, 3] : List ℚ).length) = 0 := by
    unfold kOf
    rw [Nat.floor_eq_zero]
    norm_num
  have h := (C10_theorem (9/10) [1, 2, 3] (fun x => x)
    (by norm_num) (by norm_num)).2.2.2.2 hk
  exact ⟨by simpa using h.1, h.2⟩

end FlashCosineSimSpec
